import Mathlib

/-!
# Verification of the UIDAI Aadhaar analytics dashboard core

A shallow embedding of the data-processing core of `src/app.py`: the CSV
loader with DD-MM-YYYY date normalization, the state filter stage, the
scalar totals, the monthly group-by aggregation, the series combination
(`Series.add` with `fill_value=0`), the z-score anomaly detector, and the
3-month rolling mean.  Numeric values are modelled as rationals; the
pandas `NaN` propagation of `mean`/`std` on degenerate series is modelled
by explicit guards (a `NaN > 2` comparison in pandas is false, so a
series whose standard deviation is `NaN` or `0` flags nothing).
-/

namespace UIDAI

/-- A calendar month, encoded as `year * 12 + (monthOfYear - 1)` —
the order-isomorphic image of pandas `Period('M')` values. -/
abbrev Month := ℕ

/-- One row of a loaded table: the `state` field (`none` models pandas
null/NaN), the derived `month` (`none` when the date failed to parse,
matching `errors='coerce'` followed by `.dt.to_period('M')`), and the
numeric metric columns of the table in schema order. -/
structure Record where
  state : Option String
  month : Option Month
  vals  : List ℚ
deriving DecidableEq, Repr

/-- A raw tabular source as handed to the loader: the header row and the
data rows as association lists from column name to cell text. -/
structure RawTable where
  header : List String
  rows   : List (List (String × String))

/-- Cell access within a raw row. -/
def lookupField (row : List (String × String)) (c : String) : Option String :=
  (row.find? (fun p => p.1 == c)).map (fun p => p.2)

/-- Numeric value of a digit string. -/
def natOfDigits (cs : List Char) : ℕ :=
  cs.foldl (fun n c => 10 * n + (c.toNat - 48)) 0

/-- A nonempty string of decimal digits. -/
def isDigits (cs : List Char) : Bool :=
  !cs.isEmpty && cs.all Char.isDigit

/-- Split a character sequence at every `-`, keeping empty pieces
(`"a--b"` gives three pieces) — `String.splitOn "-"`. -/
def splitDash : List Char → List (List Char)
  | [] => [[]]
  | c :: cs =>
    if c = '-' then [] :: splitDash cs
    else
      match splitDash cs with
      | [] => [[c]]
      | g :: gs => (c :: g) :: gs

/-- Gregorian leap-year test. -/
def isLeap (y : ℕ) : Bool :=
  (y % 4 == 0 && y % 100 != 0) || (y % 400 == 0)

/-- Number of days in a month of a given year. -/
def daysInMonth (y m : ℕ) : ℕ :=
  if m == 2 then (if isLeap y then 29 else 28)
  else if m == 4 || m == 6 || m == 9 || m == 11 then 30
  else 31

/-- Embeds `pd.to_datetime(s, format='%d-%m-%Y', errors='coerce')` from
`src/app.py` line 32: a date parses exactly when it is day-month-year
separated by `-`, day and month of at most two digits, a four-digit year,
and the day is valid for that calendar month; any failure yields `none`
(pandas `NaT`) instead of raising. -/
def parseDate (s : String) : Option (ℕ × ℕ × ℕ) :=
  match splitDash s.data with
  | [ds, ms, ys] =>
    if isDigits ds && isDigits ms && isDigits ys
        && decide (ds.length ≤ 2) && decide (ms.length ≤ 2) && (ys.length == 4) then
      let d := natOfDigits ds
      let m := natOfDigits ms
      let y := natOfDigits ys
      if (1 ≤ m && m ≤ 12 && 1 ≤ d && d ≤ daysInMonth y m : Bool) then
        some (d, m, y)
      else none
    else none
  | _ => none

/-- `df['date'].dt.to_period('M')`: truncate a parsed `(day, month, year)`
date to its calendar month. -/
def toMonth (dmy : ℕ × ℕ × ℕ) : Month :=
  dmy.2.2 * 12 + (dmy.2.1 - 1)

/-- Numeric cell parsing for metric columns (counts in the CSVs);
a missing or non-numeric cell contributes `0`. -/
def parseMetric (o : Option String) : ℚ :=
  match o with
  | some s => if isDigits s.data then (natOfDigits s.data : ℚ) else 0
  | none => 0

/-- Build one `Record` from a raw row: the date normalization loop of
`src/app.py` lines 31–33 applied to a single row, extracting the given
metric columns. -/
def mkRecord (metricCols : List String) (row : List (String × String)) : Record :=
  { state := lookupField row "state"
    month := ((lookupField row "date").bind parseDate).map toMonth
    vals  := metricCols.map (fun c => parseMetric (lookupField row c)) }

/-- The loader plus date-fix stage (`load_data` and the loop at lines
31–33): accessing `df['date']` on a frame whose header lacks the `date`
column raises a `KeyError`, modelled as the error branch, so no table is
produced; otherwise every row is normalized. -/
def loadTable (metricCols : List String) (t : RawTable) : Except String (List Record) :=
  if "date" ∈ t.header then
    Except.ok (t.rows.map (mkRecord metricCols))
  else
    Except.error "KeyError: date"

/-- Row-wise sum of the metric columns (one row's contribution to a
`.sum().sum()` total). -/
def recordTotal (r : Record) : ℚ := r.vals.sum

/-- `df[cols].sum().sum()` — the scalar total of a table's metric
columns, independent of `month`. -/
def total (t : List Record) : ℚ := (t.map recordTotal).sum

/-- `df[df['state'] == s]` — keep exactly the rows whose state equals `s`
(pandas `==` against a scalar string is case-sensitive exact equality,
and a null state compares unequal). -/
def filterState (s : String) (t : List Record) : List Record :=
  t.filter (fun r => r.state == some s)

/-- `sorted(enrol['state'].dropna().unique().tolist())` — the selectable
state values of the sidebar: distinct non-null states of the enrolment
table, sorted ascending. -/
def stateOptions (enrol : List Record) : List String :=
  List.insertionSort (· ≤ ·) (enrol.filterMap (fun r => r.state)).dedup

/-- The filter stage of `src/app.py` lines 45–48: any selection other
than the sentinel `"All"` narrows all three tables to that state;
`"All"` passes them through unchanged. -/
def applyFilter (state : String) (enrol demo bio : List Record) :
    List Record × List Record × List Record :=
  if state ≠ "All" then
    (filterState state enrol, filterState state demo, filterState state bio)
  else
    (enrol, demo, bio)

/-- The distinct non-null months of a table, sorted ascending — the group
keys produced by `df.groupby('month')` (pandas drops null keys and sorts
group keys). -/
def monthKeys (t : List Record) : List Month :=
  List.insertionSort (· ≤ ·) (t.filterMap (fun r => r.month)).dedup

/-- `df.groupby('month')[cols].sum().sum(axis=1)` — the monthly series:
for each distinct non-null month, the sum over that month's rows of the
row-wise metric totals. -/
def monthlySum (t : List Record) : List (Month × ℚ) :=
  (monthKeys t).map (fun m => (m, total (t.filter (fun r => r.month == some m))))

/-- `seriesA.add(seriesB, fill_value=0)` on month-indexed series with
sorted unique indices: merge the two sorted association lists, adding
values on a common month and keeping the single value (plus the `0`
fill) on a month present in only one input. -/
def combine : List (Month × ℚ) → List (Month × ℚ) → List (Month × ℚ)
  | [], b => b
  | a, [] => a
  | (m₁, v₁) :: a, (m₂, v₂) :: b =>
    if m₁ < m₂ then (m₁, v₁) :: combine a ((m₂, v₂) :: b)
    else if m₂ < m₁ then (m₂, v₂) :: combine ((m₁, v₁) :: a) b
    else (m₁, v₁ + v₂) :: combine a b
termination_by a b => a.length + b.length

/-- The value of a series at a month, with the missing-month zero fill. -/
def lookupVal (s : List (Month × ℚ)) (m : Month) : ℚ :=
  ((s.find? (fun p => p.1 == m)).map Prod.snd).getD 0

/-- The month keys of a series. -/
def seriesKeys (s : List (Month × ℚ)) : List Month := s.map Prod.fst

/-- A series with strictly increasing month keys — the shape every
group-by aggregate has: chronologically ordered and duplicate-free. -/
def SortedKeys (s : List (Month × ℚ)) : Prop :=
  List.Pairwise (fun p q => p.1 < q.1) s

/-- `Series.mean()`. -/
def mean (xs : List ℚ) : ℚ := xs.sum / xs.length

/-- `Series.std()` squared: pandas sample variance (`ddof=1`).  For a
series of fewer than two points the divisor is `0`, which models the
`NaN` standard deviation (any comparison against it is false, see
`detectAnomalies`). -/
def sampleVar (xs : List ℚ) : ℚ :=
  (xs.map (fun x => (x - mean xs) ^ 2)).sum / ((xs.length - 1 : ℕ) : ℚ)

/-- Lines 114–115 of `src/app.py`: flag the months whose z-score
`(v - mean) / std` has absolute value exceeding `2`.  Since values are
rationals, `|v - mean| / s > 2` (for `s > 0`) is stated as
`(v - mean)^2 > 4 * s^2`, i.e. `(v - mean)^2 > 4 * sampleVar`.  When the
series has fewer than two points the pandas `std` is `NaN`, and when the
variance is zero every deviation is zero, so `|z| > 2` is false for
every month in both cases: no month is flagged, modelled by the guard. -/
def detectAnomalies (series : List (Month × ℚ)) : List Month :=
  let xs := series.map (fun p => p.2)
  if 2 ≤ xs.length ∧ sampleVar xs ≠ 0 then
    (series.filter (fun p =>
      decide (4 * sampleVar xs < (p.2 - mean xs) ^ 2))).map (fun p => p.1)
  else []

/-- `Series.rolling(3).mean()` on the value column: position `i` carries
the mean of the window ending at `i` when at least `3` observations are
available (`min_periods` defaults to the window size), and no value
(`NaN`) otherwise. -/
def rollingVals (xs : List ℚ) : List (Option ℚ) :=
  (List.range xs.length).map (fun i =>
    if 3 ≤ i + 1 then some (((xs.drop (i + 1 - 3)).take 3).sum / 3) else none)

/-- `monthly_total.rolling(3).mean()` keeping the month index. -/
def rollingMean3 (series : List (Month × ℚ)) : List (Month × Option ℚ) :=
  (series.map (fun p => p.1)).zip (rollingVals (series.map (fun p => p.2)))

/-! ## Basic lemmas about totals, filtering and the option list -/

@[simp] theorem total_nil : total [] = 0 := rfl

@[simp] theorem total_cons (r : Record) (t : List Record) :
    total (r :: t) = recordTotal r + total t := by
  simp [total]

theorem filterState_cons (s : String) (r : Record) (t : List Record) :
    filterState s (r :: t) =
      if r.state = some s then r :: filterState s t else filterState s t := by
  by_cases h : r.state = some s <;> simp [filterState, List.filter_cons, h]

theorem mem_filterState {s : String} {r : Record} {t : List Record} :
    r ∈ filterState s t ↔ r ∈ t ∧ r.state = some s := by
  simp [filterState]

theorem mem_stateOptions {enrol : List Record} {s : String} :
    s ∈ stateOptions enrol ↔ ∃ r ∈ enrol, r.state = some s := by
  simp [stateOptions, List.mem_insertionSort, List.mem_dedup, List.mem_filterMap]

theorem nodup_stateOptions (enrol : List Record) : (stateOptions enrol).Nodup :=
  ((List.perm_insertionSort _ _).nodup_iff).mpr (List.nodup_dedup _)

theorem sum_map_ite_of_not_mem (v : ℚ) :
    ∀ (ss : List String) (s₀ : String), s₀ ∉ ss →
      (ss.map (fun s => if s₀ = s then v else 0)).sum = 0 := by
  intro ss
  induction ss with
  | nil => simp
  | cons a ss ih =>
    intro s₀ h
    have ha : s₀ ≠ a := fun hc => h (hc ▸ List.mem_cons_self a ss)
    have hs : s₀ ∉ ss := fun hc => h (List.mem_cons_of_mem a hc)
    simp [ha, ih s₀ hs]

theorem sum_map_ite_of_mem (v : ℚ) :
    ∀ (ss : List String) (s₀ : String), ss.Nodup → s₀ ∈ ss →
      (ss.map (fun s => if s₀ = s then v else 0)).sum = v := by
  intro ss
  induction ss with
  | nil => simp
  | cons a ss ih =>
    intro s₀ hnd hmem
    rcases List.mem_cons.mp hmem with h | h
    · subst h
      have : s₀ ∉ ss := (List.nodup_cons.mp hnd).1
      simp [sum_map_ite_of_not_mem v ss s₀ this]
    · have ha : s₀ ≠ a := by
        rintro rfl
        exact (List.nodup_cons.mp hnd).1 h
      simp [ha, ih s₀ (List.nodup_cons.mp hnd).2 h]

/-- Partition lemma: summing the per-state totals over a duplicate-free
list of states that covers every record's state recovers the table
total. -/
theorem sum_total_filterState {ss : List String} (hnd : ss.Nodup) :
    ∀ t : List Record, (∀ r ∈ t, ∃ s ∈ ss, r.state = some s) →
      (ss.map (fun s => total (filterState s t))).sum = total t := by
  intro t
  induction t with
  | nil => simp [filterState, List.filter]
  | cons r t ih =>
    intro hall
    obtain ⟨s₀, hs₀, hstate⟩ := hall r (List.mem_cons_self r t)
    have hsum : ∀ s ∈ ss, total (filterState s (r :: t)) =
        (if s₀ = s then recordTotal r else 0) + total (filterState s t) := by
      intro s _
      rw [filterState_cons, hstate]
      by_cases h : s₀ = s
      · simp [h]
      · have : ¬ (some s₀ = some s) := by simpa using h
        simp [h, this]
    rw [List.map_congr_left hsum, List.sum_map_add, sum_map_ite_of_mem _ ss s₀ hnd hs₀,
      ih (fun r hr => hall r (List.mem_cons_of_mem _ hr)), total_cons]

/-! ## C6: missing `date` column -/

/-- C6: loading a source whose header lacks the required `date` column
fails with the load error (the `KeyError` raised by the date
normalization), and no table — partial or otherwise — is produced. -/
theorem c6_load_missing_date_errors (cols : List String) (t : RawTable)
    (h : "date" ∉ t.header) :
    loadTable cols t = Except.error "KeyError: date" ∧
      ∀ tbl, loadTable cols t ≠ Except.ok tbl := by
  constructor
  · simp [loadTable, h]
  · intro tbl
    simp [loadTable, h]

/-- Witness for C6 at a concrete raw source with no `date` column. -/
theorem c6_load_missing_date_errors_witness :
    loadTable ["v"] ⟨["state", "v"], [[("state", "X"), ("v", "3")]]⟩ =
        Except.error "KeyError: date" ∧
      ∀ tbl, loadTable ["v"] ⟨["state", "v"], [[("state", "X"), ("v", "3")]]⟩ ≠
        Except.ok tbl :=
  c6_load_missing_date_errors ["v"] ⟨["state", "v"], [[("state", "X"), ("v", "3")]]⟩
    (by decide)

/-! ## C7: unparseable dates -/

theorem monthlySum_cons_none {r : Record} (t : List Record) (h : r.month = none) :
    monthlySum (r :: t) = monthlySum t := by
  have hkeys : monthKeys (r :: t) = monthKeys t := by
    simp [monthKeys, List.filterMap_cons, h]
  have hfilter : ∀ m : Month,
      (r :: t).filter (fun x => x.month == some m) =
        t.filter (fun x => x.month == some m) := by
    intro m
    simp [List.filter_cons, h]
  simp only [monthlySum, hkeys]
  exact List.map_congr_left (fun m _ => by rw [hfilter m])

/-- C7: a row whose date text fails the fixed `DD-MM-YYYY` parse loads
without failure into a record whose derived month is null; such a record
is invisible to the month-keyed aggregation, but still contributes its
metric values to the scalar total. -/
theorem c7_unparseable_date_record (cols : List String)
    (row : List (String × String)) (t : List Record)
    (h : (lookupField row "date").bind parseDate = none) :
    (mkRecord cols row).month = none ∧
      monthlySum (mkRecord cols row :: t) = monthlySum t ∧
      total (mkRecord cols row :: t) = recordTotal (mkRecord cols row) + total t := by
  have hm : (mkRecord cols row).month = none := by
    simp [mkRecord, h]
  exact ⟨hm, monthlySum_cons_none t hm, total_cons _ t⟩

/-- Witness for C7: the ISO-ordered text `2020-01-15` does not parse as
`DD-MM-YYYY`. -/
theorem c7_unparseable_date_record_witness :
    (mkRecord ["v"] [("date", "2020-01-15"), ("state", "X"), ("v", "7")]).month = none ∧
      monthlySum (mkRecord ["v"] [("date", "2020-01-15"), ("state", "X"), ("v", "7")] ::
          [⟨some "X", some 24240, [1]⟩]) = monthlySum [⟨some "X", some 24240, [1]⟩] ∧
      total (mkRecord ["v"] [("date", "2020-01-15"), ("state", "X"), ("v", "7")] ::
          [⟨some "X", some 24240, [1]⟩]) =
        recordTotal (mkRecord ["v"] [("date", "2020-01-15"), ("state", "X"), ("v", "7")]) +
          total [⟨some "X", some 24240, [1]⟩] :=
  c7_unparseable_date_record ["v"] [("date", "2020-01-15"), ("state", "X"), ("v", "7")]
    [⟨some "X", some 24240, [1]⟩] (by decide)

/-! ## C8: the filter stage -/

/-- C8: the sentinel `"All"` passes all three tables through unchanged;
any other selection keeps, in each of the three tables, exactly the
records whose `state` equals the selection under exact (case-sensitive)
string comparison — each filtered table is a sublist of its original —
and, the embedding being a pure function of the original tables,
re-filtering from the originals yields the same result. -/
theorem c8_filter_stage_spec (e d b : List Record) (v : String) (hv : v ≠ "All") :
    applyFilter "All" e d b = (e, d, b) ∧
      (∀ r, r ∈ (applyFilter v e d b).1 ↔ r ∈ e ∧ r.state = some v) ∧
      (∀ r, r ∈ (applyFilter v e d b).2.1 ↔ r ∈ d ∧ r.state = some v) ∧
      (∀ r, r ∈ (applyFilter v e d b).2.2 ↔ r ∈ b ∧ r.state = some v) ∧
      (applyFilter v e d b).1.Sublist e ∧
      (applyFilter v e d b).2.1.Sublist d ∧
      (applyFilter v e d b).2.2.Sublist b ∧
      applyFilter v e d b = applyFilter v e d b := by
  refine ⟨by simp [applyFilter], ?_, ?_, ?_, ?_, ?_, ?_, rfl⟩ <;>
    simp [applyFilter, hv, mem_filterState, filterState, List.filter_sublist]

/-- Witness for C8 at a concrete selection and concrete tables. -/
theorem c8_filter_stage_spec_witness :
    applyFilter "All" [⟨some "X", none, [1]⟩] [] [] =
        ([⟨some "X", none, [1]⟩], [], []) ∧
      (∀ r, r ∈ (applyFilter "X" [⟨some "X", none, [1]⟩] [] []).1 ↔
        r ∈ [⟨some "X", none, [1]⟩] ∧ r.state = some "X") ∧
      (∀ r, r ∈ (applyFilter "X" [⟨some "X", none, [1]⟩] [] []).2.1 ↔
        r ∈ ([] : List Record) ∧ r.state = some "X") ∧
      (∀ r, r ∈ (applyFilter "X" [⟨some "X", none, [1]⟩] [] []).2.2 ↔
        r ∈ ([] : List Record) ∧ r.state = some "X") ∧
      (applyFilter "X" [⟨some "X", none, [1]⟩] [] []).1.Sublist [⟨some "X", none, [1]⟩] ∧
      (applyFilter "X" [⟨some "X", none, [1]⟩] [] []).2.1.Sublist [] ∧
      (applyFilter "X" [⟨some "X", none, [1]⟩] [] []).2.2.Sublist [] ∧
      applyFilter "X" [⟨some "X", none, [1]⟩] [] [] =
        applyFilter "X" [⟨some "X", none, [1]⟩] [] [] :=
  c8_filter_stage_spec [⟨some "X", none, [1]⟩] [] [] "X" (by decide)

/-! ## C5: the monthly group-by aggregation -/

theorem mem_monthKeys {t : List Record} {m : Month} :
    m ∈ monthKeys t ↔ ∃ r ∈ t, r.month = some m := by
  simp [monthKeys, List.mem_insertionSort, List.mem_dedup, List.mem_filterMap]

theorem monthKeys_sorted_lt (t : List Record) :
    List.Sorted (· < ·) (monthKeys t) := by
  have h1 : List.Sorted (· ≤ ·) (monthKeys t) := List.sorted_insertionSort _ _
  have h2 : (monthKeys t).Nodup :=
    ((List.perm_insertionSort _ _).nodup_iff).mpr (List.nodup_dedup _)
  exact h1.lt_of_le h2

theorem monthlySum_map_fst (t : List Record) :
    (monthlySum t).map Prod.fst = monthKeys t := by
  simp [monthlySum, List.map_map, Function.comp_def]

/-- C5: the monthly aggregation is keyed by the distinct non-null months
of the table, each exactly once, in strictly ascending order, and carries
for each key the sum of the metric totals of that month's records. -/
theorem c5_monthlySum_spec (t : List Record) :
    List.Sorted (· < ·) ((monthlySum t).map Prod.fst) ∧
      ((monthlySum t).map Prod.fst).Nodup ∧
      (∀ m : Month, m ∈ (monthlySum t).map Prod.fst ↔ ∃ r ∈ t, r.month = some m) ∧
      ∀ m v, (m, v) ∈ monthlySum t →
        v = total (t.filter (fun r => r.month == some m)) := by
  have hsorted : List.Sorted (· < ·) ((monthlySum t).map Prod.fst) := by
    rw [monthlySum_map_fst]; exact monthKeys_sorted_lt t
  refine ⟨hsorted, hsorted.nodup, ?_, ?_⟩
  · intro m
    rw [monthlySum_map_fst]
    exact mem_monthKeys
  · intro m v hmv
    simp only [monthlySum, List.mem_map] at hmv
    obtain ⟨m', _, heq⟩ := hmv
    obtain ⟨rfl, rfl⟩ : m' = m ∧ total (t.filter (fun r => r.month == some m')) = v := by
      simpa [Prod.ext_iff] using heq
    rfl

/-- Witness for C5: the third conjunct applied to a concrete table and a
concrete key-value pair of its aggregate. -/
theorem c5_monthlySum_spec_witness :
    (4 : ℚ) = total ([⟨some "A", some 5, [1, 2]⟩,
        (⟨some "A", some 3, [4]⟩ : Record)].filter (fun r => r.month == some 3)) :=
  (c5_monthlySum_spec [⟨some "A", some 5, [1, 2]⟩, ⟨some "A", some 3, [4]⟩]).2.2.2 3 4
    (by simp [monthlySum, monthKeys, total, recordTotal, List.insertionSort,
      List.orderedInsert, List.filter])

/-! ## C1: the partition property of per-state totals -/

/-- C1 counterexample: with a demographic record whose `state` is null,
summing the per-state demographic totals over the whole choice set (built
from the enrolment table) does not recover the unfiltered demographic
total: the null-state record is counted by the total but by no state. -/
theorem c1_partition_counterexample :
    ¬ (((stateOptions [⟨some "A", none, [1]⟩]).map
          (fun s => total ((applyFilter s [⟨some "A", none, [1]⟩]
            [⟨some "A", none, [2]⟩, ⟨none, none, [5]⟩] []).2.1))).sum =
        total [⟨some "A", none, [2]⟩, ⟨none, none, [5]⟩]) := by
  have hopts : stateOptions [(⟨some "A", none, [1]⟩ : Record)] = ["A"] := by decide
  rw [hopts]
  simp [applyFilter, filterState, List.filter, total, recordTotal]

/-- C1 amended: provided every record of each of the three tables has a
non-null state that occurs in the enrolment table, and no state value
collides with the sentinel `"All"`, the per-state totals obtained through
the filter stage sum, over the choice set, to the three unfiltered
totals. -/
theorem c1_partition_amended (e d b : List Record)
    (hAll : "All" ∉ stateOptions e)
    (he : ∀ r ∈ e, r.state ≠ none)
    (hd : ∀ r ∈ d, ∃ s ∈ stateOptions e, r.state = some s)
    (hb : ∀ r ∈ b, ∃ s ∈ stateOptions e, r.state = some s) :
    ((stateOptions e).map (fun s => total ((applyFilter s e d b).1))).sum = total e ∧
      ((stateOptions e).map (fun s => total ((applyFilter s e d b).2.1))).sum = total d ∧
      ((stateOptions e).map (fun s => total ((applyFilter s e d b).2.2))).sum = total b := by
  have hfil : ∀ s ∈ stateOptions e,
      applyFilter s e d b = (filterState s e, filterState s d, filterState s b) := by
    intro s hs
    have hne : s ≠ "All" := fun hc => hAll (hc ▸ hs)
    simp [applyFilter, hne]
  have he' : ∀ r ∈ e, ∃ s ∈ stateOptions e, r.state = some s := by
    intro r hr
    obtain ⟨s, hs⟩ := Option.ne_none_iff_exists'.mp (he r hr)
    exact ⟨s, mem_stateOptions.mpr ⟨r, hr, hs⟩, hs⟩
  refine ⟨?_, ?_, ?_⟩
  · rw [List.map_congr_left (fun s hs => by rw [hfil s hs])]
    exact sum_total_filterState (nodup_stateOptions e) e he'
  · rw [List.map_congr_left (fun s hs => by rw [hfil s hs])]
    exact sum_total_filterState (nodup_stateOptions e) d hd
  · rw [List.map_congr_left (fun s hs => by rw [hfil s hs])]
    exact sum_total_filterState (nodup_stateOptions e) b hb

/-- Witness for the amended C1 at concrete tables. -/
theorem c1_partition_amended_witness :
    ((stateOptions [⟨some "A", none, [1]⟩]).map
        (fun s => total ((applyFilter s [⟨some "A", none, [1]⟩]
          [⟨some "A", none, [2]⟩] []).1))).sum = total [⟨some "A", none, [1]⟩] ∧
      ((stateOptions [⟨some "A", none, [1]⟩]).map
        (fun s => total ((applyFilter s [⟨some "A", none, [1]⟩]
          [⟨some "A", none, [2]⟩] []).2.1))).sum = total [⟨some "A", none, [2]⟩] ∧
      ((stateOptions [⟨some "A", none, [1]⟩]).map
        (fun s => total ((applyFilter s [⟨some "A", none, [1]⟩]
          [⟨some "A", none, [2]⟩] []).2.2))).sum = total ([] : List Record) :=
  c1_partition_amended [⟨some "A", none, [1]⟩] [⟨some "A", none, [2]⟩] []
    (by decide) (by decide) (by decide) (by decide)

/-! ## C10: null-state records -/

theorem total_filter_add (p : Record → Bool) (t : List Record) :
    total (t.filter p) + total (t.filter (fun r => !(p r))) = total t := by
  induction t with
  | nil => simp
  | cons r t ih =>
    cases hp : p r <;> simp [List.filter_cons, hp, ← ih] <;> ring

/-- Summing the per-state totals over a table's own selectable states
collects exactly the records with a non-null state. -/
theorem sum_total_filterState_options (t : List Record) :
    ((stateOptions t).map (fun s => total (filterState s t))).sum =
      total (t.filter (fun r => !(r.state == none))) := by
  have hfil : ∀ s : String, filterState s t =
      filterState s (t.filter (fun r => !(r.state == none))) := by
    intro s
    simp only [filterState, List.filter_filter]
    refine (List.filter_congr ?_).symm
    intro r _
    cases hr : r.state <;> simp [hr]
  have hall : ∀ r ∈ t.filter (fun r => !(r.state == none)),
      ∃ s ∈ stateOptions t, r.state = some s := by
    intro r hr
    obtain ⟨hrt, hrs⟩ := List.mem_filter.mp hr
    cases hstate : r.state with
    | none => simp [hstate] at hrs
    | some s => exact ⟨s, mem_stateOptions.mpr ⟨r, hrt, hstate⟩, rfl⟩
  rw [List.map_congr_left (fun s _ => by rw [hfil s])]
  exact sum_total_filterState (nodup_stateOptions t) _ hall

/-- C10 counterexample: a table whose only record has a null state (and
all-zero metrics) has a record with null state, yet the per-state totals
still partition the unfiltered total (both sides are `0`) — so a null
state alone does not break the partition property. -/
theorem c10_null_state_counterexample :
    (∃ r ∈ [(⟨none, none, [0]⟩ : Record)], r.state = none) ∧
      ((stateOptions [(⟨none, none, [0]⟩ : Record)]).map
        (fun s => total (filterState s [(⟨none, none, [0]⟩ : Record)]))).sum =
        total [(⟨none, none, [0]⟩ : Record)] := by
  constructor
  · exact ⟨⟨none, none, [0]⟩, List.mem_cons_self _ _, rfl⟩
  · simp [stateOptions, total, recordTotal]

/-- C10 amended: a null-state record contributes no selectable state, is
excluded from every per-state filtered view, and still counts towards the
unfiltered totals; consequently, whenever the null-state records of a
table carry a nonzero combined metric total, the per-state totals of that
table do not partition its unfiltered total. -/
theorem c10_null_state_amended (e t : List Record) (v : String) (r : Record)
    (hr : r.state = none) :
    stateOptions (r :: e) = stateOptions e ∧
      r ∉ filterState v t ∧
      total (r :: t) = recordTotal r + total t ∧
      (total (e.filter (fun x => x.state == none)) ≠ 0 →
        ((stateOptions e).map (fun s => total (filterState s e))).sum ≠ total e) := by
  refine ⟨?_, ?_, total_cons r t, ?_⟩
  · simp [stateOptions, List.filterMap_cons, hr]
  · intro hmem
    have := (mem_filterState.mp hmem).2
    rw [hr] at this
    exact Option.noConfusion this
  · intro hnz heq
    apply hnz
    have hsplit := total_filter_add (fun x => x.state == none) e
    have hsum := sum_total_filterState_options e
    have : total (e.filter (fun x => !(x.state == none))) = total e := by
      rw [← hsum, heq]
    linarith [hsplit, this]

/-- Witness for the amended C10: a concrete table in which the null-state
record carries value `5`, so the per-state totals miss the unfiltered
total. -/
theorem c10_null_state_amended_witness :
    stateOptions ((⟨none, none, [5]⟩ : Record) :: [⟨some "A", none, [2]⟩]) =
        stateOptions [⟨some "A", none, [2]⟩] ∧
      (⟨none, none, [5]⟩ : Record) ∉ filterState "A" [⟨some "A", none, [2]⟩] ∧
      total ((⟨none, none, [5]⟩ : Record) :: [⟨some "A", none, [2]⟩]) =
        recordTotal ⟨none, none, [5]⟩ + total [⟨some "A", none, [2]⟩] ∧
      (total ([(⟨some "A", none, [2]⟩ : Record), ⟨none, none, [5]⟩].filter
          (fun x => x.state == none)) ≠ 0 →
        ((stateOptions [(⟨some "A", none, [2]⟩ : Record), ⟨none, none, [5]⟩]).map
          (fun s => total (filterState s
            [(⟨some "A", none, [2]⟩ : Record), ⟨none, none, [5]⟩]))).sum ≠
          total [(⟨some "A", none, [2]⟩ : Record), ⟨none, none, [5]⟩]) :=
  c10_null_state_amended [⟨some "A", none, [2]⟩, ⟨none, none, [5]⟩]
    [⟨some "A", none, [2]⟩] "A" ⟨none, none, [5]⟩ (by decide)

/-! ## C3: the 3-month rolling mean -/

theorem rollingVals_length (xs : List ℚ) : (rollingVals xs).length = xs.length := by
  simp [rollingVals]

theorem take3_drop_sum (xs : List ℚ) (i : ℕ) (h2 : 2 ≤ i) (h : i < xs.length) :
    ((xs.drop (i - 2)).take 3).sum = xs.getD (i - 2) 0 + xs.getD (i - 1) 0 + xs.getD i 0 := by
  have ha : i - 2 < xs.length := lt_of_le_of_lt (Nat.sub_le i 2) h
  have hb : i - 1 < xs.length := lt_of_le_of_lt (Nat.sub_le i 1) h
  have e1 : xs.drop (i - 2) = xs.get ⟨i - 2, ha⟩ :: xs.drop (i - 2 + 1) :=
    List.drop_eq_getElem_cons ha
  have h21 : i - 2 + 1 = i - 1 := by omega
  have h10 : i - 1 + 1 = i := by omega
  have e2 : xs.drop (i - 1) = xs.get ⟨i - 1, hb⟩ :: xs.drop (i - 1 + 1) :=
    List.drop_eq_getElem_cons hb
  have e3 : xs.drop i = xs.get ⟨i, h⟩ :: xs.drop (i + 1) :=
    List.drop_eq_getElem_cons h
  rw [e1, h21, e2, h10, e3]
  simp [List.getD_eq_getElem?_getD, List.getElem?_eq_getElem, ha, hb, h, add_assoc]

theorem rollingVals_getD (xs : List ℚ) (i : ℕ) (h : i < xs.length) :
    (rollingVals xs).getD i none =
      if 3 ≤ i + 1 then
        some ((xs.getD (i - 2) 0 + xs.getD (i - 1) 0 + xs.getD i 0) / 3)
      else none := by
  rw [rollingVals, List.getD_eq_getElem?_getD, List.getElem?_map, List.getElem?_range h]
  by_cases h3 : 3 ≤ i + 1
  · have hi : i + 1 - 3 = i - 2 := by omega
    simp only [Option.map_some', Option.getD_some, if_pos h3]
    rw [hi, take3_drop_sum xs i (by omega) h]
  · simp only [Option.map_some', Option.getD_some, if_neg h3]

/-- C3: the rolling mean retains the month ordering; at every 0-based
index `i` of the value series its entry is defined exactly when
`i + 1 ≥ 3`, in which case it is the arithmetic mean of the values at
indices `i-2`, `i-1`, `i`; and on the series `[10, 20, 30, 40]` the
first two months carry no value while the last two yield `20` and
`30`. -/
theorem c3_rollingMean_spec :
    (∀ series : List (Month × ℚ),
        (rollingMean3 series).map Prod.fst = series.map Prod.fst) ∧
      (∀ (xs : List ℚ) (i : ℕ), i < xs.length →
        (rollingVals xs).getD i none =
          if 3 ≤ i + 1 then
            some ((xs.getD (i - 2) 0 + xs.getD (i - 1) 0 + xs.getD i 0) / 3)
          else none) ∧
      rollingMean3 [(1, 10), (2, 20), (3, 30), (4, 40)] =
        [(1, none), (2, none), (3, some 20), (4, some 30)] := by
  refine ⟨?_, fun xs i h => rollingVals_getD xs i h, ?_⟩
  · intro series
    have hlen : (series.map (fun p => p.1)).length ≤
        (rollingVals (series.map (fun p => p.2))).length := by
      simp [rollingVals_length]
    have := List.map_fst_zip (series.map (fun p => p.1))
      (rollingVals (series.map (fun p => p.2))) hlen
    simpa [rollingMean3] using this
  · norm_num [rollingMean3, rollingVals, List.range_succ]

/-- Witness for C3: the window-mean characterization applied at index `2`
of the concrete series `[10, 20, 30, 40]`. -/
theorem c3_rollingMean_spec_witness :
    (rollingVals [10, 20, 30, 40]).getD 2 none =
      if 3 ≤ 2 + 1 then
        some (([10, 20, 30, 40].getD (2 - 2) 0 + [10, 20, 30, 40].getD (2 - 1) 0 +
          [10, 20, 30, 40].getD 2 0) / 3)
      else none :=
  c3_rollingMean_spec.2.1 [10, 20, 30, 40] 2 (by decide)

/-! ## C2: the anomaly detector -/

theorem mean_of_const {xs : List ℚ} {c : ℚ} (h : ∀ x ∈ xs, x = c) (hne : xs ≠ []) :
    mean xs = c := by
  have hsum : xs.sum = xs.length • c := List.sum_eq_card_nsmul xs c h
  have hlen : (xs.length : ℚ) ≠ 0 := by
    exact_mod_cast (List.length_pos.mpr hne).ne'
  rw [mean, hsum, nsmul_eq_mul, mul_div_cancel_left₀ _ hlen]

theorem sampleVar_of_const {xs : List ℚ} {c : ℚ} (h : ∀ x ∈ xs, x = c) :
    sampleVar xs = 0 := by
  rcases eq_or_ne xs [] with rfl | hne
  · simp [sampleVar]
  · have hmean := mean_of_const h hne
    have hz : (xs.map (fun x => (x - mean xs) ^ 2)).sum = 0 := by
      apply List.sum_eq_zero
      intro y hy
      obtain ⟨x, hx, rfl⟩ := List.mem_map.mp hy
      rw [h x hx, hmean, sub_self]
      ring
    rw [sampleVar, hz, zero_div]

/-- C2: a month is flagged exactly when the series has at least two
points, a nonzero sample variance (`ddof=1`), and the month's squared
deviation from the mean exceeds `4` times the sample variance — the
square-free form of `|v - mean| / stddev > 2`; a series of fewer than two
points, or a constant series (zero standard deviation), flags no month,
with no division-by-zero failure. -/
theorem c2_detectAnomalies_spec (series : List (Month × ℚ)) :
    (∀ m : Month, m ∈ detectAnomalies series ↔
        2 ≤ series.length ∧ sampleVar (series.map (fun p => p.2)) ≠ 0 ∧
          ∃ v : ℚ, (m, v) ∈ series ∧
            4 * sampleVar (series.map (fun p => p.2)) <
              (v - mean (series.map (fun p => p.2))) ^ 2) ∧
      (series.length < 2 → detectAnomalies series = []) ∧
      (∀ c : ℚ, (∀ p ∈ series, p.2 = c) → detectAnomalies series = []) := by
  refine ⟨?_, ?_, ?_⟩
  · intro m
    by_cases hg : 2 ≤ series.length ∧ sampleVar (series.map (fun p => p.2)) ≠ 0
    · simp only [detectAnomalies, List.length_map, if_pos hg]
      constructor
      · intro hm
        obtain ⟨p, hp, hpm⟩ := List.mem_map.mp hm
        obtain ⟨hps, hcond⟩ := List.mem_filter.mp hp
        refine ⟨hg.1, hg.2, p.2, ?_, by simpa using hcond⟩
        rw [← hpm]
        simpa using hps
      · rintro ⟨-, -, v, hv, hcond⟩
        exact List.mem_map.mpr ⟨(m, v),
          List.mem_filter.mpr ⟨hv, by simpa using hcond⟩, rfl⟩
    · simp only [detectAnomalies, List.length_map, if_neg hg]
      simp only [List.not_mem_nil, false_iff]
      intro hc
      exact hg ⟨hc.1, hc.2.1⟩
  · intro hshort
    have hg : ¬ (2 ≤ (series.map (fun p => p.2)).length ∧
        sampleVar (series.map (fun p => p.2)) ≠ 0) := by
      rw [List.length_map]
      exact fun hc => absurd hc.1 (Nat.not_le.mpr hshort)
    simp only [detectAnomalies]
    rw [if_neg hg]
  · intro c hconst
    have hvar : sampleVar (series.map (fun p => p.2)) = 0 := by
      apply sampleVar_of_const (c := c)
      intro x hx
      obtain ⟨p, hp, rfl⟩ := List.mem_map.mp hx
      exact hconst p hp
    have hg : ¬ (2 ≤ (series.map (fun p => p.2)).length ∧
        sampleVar (series.map (fun p => p.2)) ≠ 0) := fun hc => hc.2 hvar
    simp only [detectAnomalies]
    rw [if_neg hg]

/-- Witness for C2: the constant series `100, 100, 100` flags no
month. -/
theorem c2_detectAnomalies_spec_witness :
    detectAnomalies [(0, 100), (1, 100), (2, 100)] = [] :=
  (c2_detectAnomalies_spec [(0, 100), (1, 100), (2, 100)]).2.2 100 (by decide)

/-! ## C4: combining monthly series -/

theorem combine_nil_left (b : List (Month × ℚ)) : combine [] b = b := by
  cases b <;> simp [combine]

theorem combine_nil_right (a : List (Month × ℚ)) : combine a [] = a := by
  cases a <;> simp [combine]

theorem lookupVal_nil (m : Month) : lookupVal [] m = 0 := rfl

theorem lookupVal_cons (k : Month) (v : ℚ) (s : List (Month × ℚ)) (m : Month) :
    lookupVal ((k, v) :: s) m = if k = m then v else lookupVal s m := by
  by_cases h : k = m <;> simp [lookupVal, List.find?_cons, h]

theorem lookupVal_eq_zero (s : List (Month × ℚ)) (m : Month)
    (h : ∀ p ∈ s, m ≠ p.1) : lookupVal s m = 0 := by
  have hn : s.find? (fun p => p.1 == m) = none := by
    apply List.find?_eq_none.mpr
    intro p hp
    simpa using (h p hp).symm
  simp [lookupVal, hn]

theorem mem_seriesKeys_combine : ∀ (a b : List (Month × ℚ)) (m : Month),
    m ∈ seriesKeys (combine a b) ↔ m ∈ seriesKeys a ∨ m ∈ seriesKeys b := by
  intro a b
  induction a, b using combine.induct with
  | case1 b => intro m; simp [combine_nil_left, seriesKeys]
  | case2 a => intro m; simp [combine_nil_right, seriesKeys]
  | case3 m₁ v₁ a m₂ v₂ b h ih =>
    intro m
    simp only [combine, if_pos h, seriesKeys, List.map_cons, List.mem_cons] at *
    rw [ih m]
    tauto
  | case4 m₁ v₁ a m₂ v₂ b h h2 ih =>
    intro m
    simp only [combine, if_neg h, if_pos h2, seriesKeys, List.map_cons, List.mem_cons] at *
    rw [ih m]
    tauto
  | case5 m₁ v₁ a m₂ v₂ b h h2 ih =>
    intro m
    have heq : m₁ = m₂ := le_antisymm (Nat.le_of_not_lt h2) (Nat.le_of_not_lt h)
    subst heq
    simp only [combine, if_neg h, if_neg h2, seriesKeys, List.map_cons, List.mem_cons] at *
    rw [ih m]
    tauto

theorem lookupVal_combine : ∀ (a b : List (Month × ℚ)), SortedKeys a → SortedKeys b →
    ∀ m, lookupVal (combine a b) m = lookupVal a m + lookupVal b m := by
  intro a b
  induction a, b using combine.induct with
  | case1 b => intro _ _ m; rw [combine_nil_left, lookupVal_nil, zero_add]
  | case2 a => intro _ _ m; rw [combine_nil_right, lookupVal_nil, add_zero]
  | case3 m₁ v₁ a m₂ v₂ b h ih =>
    intro ha hb m
    have ha' : SortedKeys a := ha.of_cons
    simp only [combine, if_pos h]
    rw [lookupVal_cons, lookupVal_cons]
    by_cases hm : m₁ = m
    · subst hm
      rw [if_pos rfl, if_pos rfl]
      have hz : lookupVal ((m₂, v₂) :: b) m₁ = 0 := by
        apply lookupVal_eq_zero
        intro p hp
        rcases List.mem_cons.mp hp with rfl | hpb
        · exact Nat.ne_of_lt h
        · have : m₂ < p.1 := (List.pairwise_cons.mp hb).1 p hpb
          exact Nat.ne_of_lt (h.trans this)
      rw [hz, add_zero]
    · rw [if_neg hm, if_neg hm, ih ha' hb m]
  | case4 m₁ v₁ a m₂ v₂ b h h2 ih =>
    intro ha hb m
    have hb' : SortedKeys b := hb.of_cons
    simp only [combine, if_neg h, if_pos h2]
    rw [lookupVal_cons, lookupVal_cons]
    by_cases hm : m₂ = m
    · subst hm
      rw [if_pos rfl, if_neg (Ne.symm (Nat.ne_of_lt h2))]
      have hza : lookupVal a m₂ = 0 := by
        apply lookupVal_eq_zero
        intro p hp
        have : m₁ < p.1 := (List.pairwise_cons.mp ha).1 p hp
        exact Nat.ne_of_lt (h2.trans this)
      rw [hza, lookupVal_cons, if_pos rfl, zero_add]
    · rw [if_neg hm, ih ha hb' m, lookupVal_cons, lookupVal_cons, if_neg hm]
  | case5 m₁ v₁ a m₂ v₂ b h h2 ih =>
    intro ha hb m
    have heq : m₁ = m₂ := le_antisymm (Nat.le_of_not_lt h2) (Nat.le_of_not_lt h)
    subst heq
    have ha' : SortedKeys a := ha.of_cons
    have hb' : SortedKeys b := hb.of_cons
    simp only [combine, if_neg h, if_neg h2]
    rw [lookupVal_cons, lookupVal_cons, lookupVal_cons]
    by_cases hm : m₁ = m
    · rw [if_pos hm, if_pos hm, if_pos hm]
    · rw [if_neg hm, if_neg hm, if_neg hm, ih ha' hb' m]

theorem combine_perm_append : ∀ (a b : List (Month × ℚ)),
    (∀ m, m ∈ seriesKeys a → m ∈ seriesKeys b → False) →
      (combine a b).Perm (a ++ b) := by
  intro a b
  induction a, b using combine.induct with
  | case1 b => intro _; rw [combine_nil_left, List.nil_append]
  | case2 a => intro _; rw [combine_nil_right, List.append_nil]
  | case3 m₁ v₁ a m₂ v₂ b h ih =>
    intro hdis
    have hdis' : ∀ m, m ∈ seriesKeys a → m ∈ seriesKeys ((m₂, v₂) :: b) → False := by
      intro m hma hmb
      exact hdis m (by simp [seriesKeys] at hma ⊢; exact Or.inr hma) hmb
    simp only [combine, if_pos h, List.cons_append]
    exact (ih hdis').cons _
  | case4 m₁ v₁ a m₂ v₂ b h h2 ih =>
    intro hdis
    have hdis' : ∀ m, m ∈ seriesKeys ((m₁, v₁) :: a) → m ∈ seriesKeys b → False := by
      intro m hma hmb
      exact hdis m hma (by simp [seriesKeys] at hmb ⊢; exact Or.inr hmb)
    simp only [combine, if_neg h, if_pos h2]
    exact ((ih hdis').cons _).trans List.perm_middle.symm
  | case5 m₁ v₁ a m₂ v₂ b h h2 ih =>
    intro hdis
    have heq : m₁ = m₂ := le_antisymm (Nat.le_of_not_lt h2) (Nat.le_of_not_lt h)
    exact (hdis m₁ (by simp [seriesKeys]) (by simp [seriesKeys, heq])).elim

theorem sortedKeys_combine : ∀ (a b : List (Month × ℚ)),
    SortedKeys a → SortedKeys b → SortedKeys (combine a b) := by
  intro a b
  induction a, b using combine.induct with
  | case1 b => intro _ hb; rwa [combine_nil_left]
  | case2 a => intro ha _; rwa [combine_nil_right]
  | case3 m₁ v₁ a m₂ v₂ b h ih =>
    intro ha hb
    have ha' : SortedKeys a := ha.of_cons
    simp only [combine, if_pos h]
    refine List.pairwise_cons.mpr ⟨?_, ih ha' hb⟩
    intro q hq
    have hq' : q.1 ∈ seriesKeys (combine a ((m₂, v₂) :: b)) :=
      List.mem_map.mpr ⟨q, hq, rfl⟩
    rcases (mem_seriesKeys_combine a _ q.1).mp hq' with hqa | hqb
    · obtain ⟨p, hp, hpq⟩ := List.mem_map.mp hqa
      exact hpq ▸ (List.pairwise_cons.mp ha).1 p hp
    · obtain ⟨p, hp, hpq⟩ := List.mem_map.mp hqb
      rcases List.mem_cons.mp hp with rfl | hpb
      · exact hpq ▸ h
      · have : m₂ < p.1 := (List.pairwise_cons.mp hb).1 p hpb
        exact hpq ▸ h.trans this
  | case4 m₁ v₁ a m₂ v₂ b h h2 ih =>
    intro ha hb
    have hb' : SortedKeys b := hb.of_cons
    simp only [combine, if_neg h, if_pos h2]
    refine List.pairwise_cons.mpr ⟨?_, ih ha hb'⟩
    intro q hq
    have hq' : q.1 ∈ seriesKeys (combine ((m₁, v₁) :: a) b) :=
      List.mem_map.mpr ⟨q, hq, rfl⟩
    rcases (mem_seriesKeys_combine _ b q.1).mp hq' with hqa | hqb
    · obtain ⟨p, hp, hpq⟩ := List.mem_map.mp hqa
      rcases List.mem_cons.mp hp with rfl | hpa
      · exact hpq ▸ h2
      · have : m₁ < p.1 := (List.pairwise_cons.mp ha).1 p hpa
        exact hpq ▸ h2.trans this
    · obtain ⟨p, hp, hpq⟩ := List.mem_map.mp hqb
      exact hpq ▸ (List.pairwise_cons.mp hb).1 p hp
  | case5 m₁ v₁ a m₂ v₂ b h h2 ih =>
    intro ha hb
    have heq : m₁ = m₂ := le_antisymm (Nat.le_of_not_lt h2) (Nat.le_of_not_lt h)
    subst heq
    have ha' : SortedKeys a := ha.of_cons
    have hb' : SortedKeys b := hb.of_cons
    simp only [combine, if_neg h, if_neg h2]
    refine List.pairwise_cons.mpr ⟨?_, ih ha' hb'⟩
    intro q hq
    have hq' : q.1 ∈ seriesKeys (combine a b) := List.mem_map.mpr ⟨q, hq, rfl⟩
    rcases (mem_seriesKeys_combine a b q.1).mp hq' with hqa | hqb
    · obtain ⟨p, hp, hpq⟩ := List.mem_map.mp hqa
      exact hpq ▸ (List.pairwise_cons.mp ha).1 p hp
    · obtain ⟨p, hp, hpq⟩ := List.mem_map.mp hqb
      exact hpq ▸ (List.pairwise_cons.mp hb).1 p hp

theorem combine_comm : ∀ (a b : List (Month × ℚ)), combine a b = combine b a := by
  intro a b
  induction a, b using combine.induct with
  | case1 b => rw [combine_nil_left, combine_nil_right]
  | case2 a => rw [combine_nil_left, combine_nil_right]
  | case3 m₁ v₁ a m₂ v₂ b h ih =>
    have h' : ¬ m₂ < m₁ := Nat.lt_asymm h
    simp only [combine, if_pos h, if_neg h']
    rw [ih]
  | case4 m₁ v₁ a m₂ v₂ b h h2 ih =>
    simp only [combine, if_neg h, if_pos h2]
    rw [ih]
  | case5 m₁ v₁ a m₂ v₂ b h h2 ih =>
    have heq : m₁ = m₂ := le_antisymm (Nat.le_of_not_lt h2) (Nat.le_of_not_lt h)
    subst heq
    simp only [combine, if_neg h]
    rw [ih, add_comm]

/-- C4: `combine` is the elementwise sum aligned by month with the
missing-month zero fill (the value of the result at every month is the
sum of the two inputs' values, absent months counting `0`, and its key
set is the union of the two key sets); it is commutative; and on inputs
with disjoint month sets its entries are exactly the concatenation of the
two inputs (each month keeping its single input's value), in
chronological order when the inputs are chronological. -/
theorem c4_combine_spec :
    (∀ a b : List (Month × ℚ), combine a b = combine b a) ∧
      (∀ a b : List (Month × ℚ), SortedKeys a → SortedKeys b →
        ∀ m, lookupVal (combine a b) m = lookupVal a m + lookupVal b m) ∧
      (∀ (a b : List (Month × ℚ)) (m : Month),
        m ∈ seriesKeys (combine a b) ↔ m ∈ seriesKeys a ∨ m ∈ seriesKeys b) ∧
      (∀ a b : List (Month × ℚ),
        (∀ m, m ∈ seriesKeys a → m ∈ seriesKeys b → False) →
          (combine a b).Perm (a ++ b)) ∧
      (∀ a b : List (Month × ℚ), SortedKeys a → SortedKeys b →
        SortedKeys (combine a b)) :=
  ⟨combine_comm, lookupVal_combine, mem_seriesKeys_combine,
    combine_perm_append, sortedKeys_combine⟩

/-- Witness for C4: disjoint concrete series combine to (a permutation
of) their concatenation. -/
theorem c4_combine_spec_witness :
    (combine [(1, 5)] [(2, 7)]).Perm ([(1, 5)] ++ [(2, 7)]) :=
  c4_combine_spec.2.2.2.1 [(1, 5)] [(2, 7)] (by decide)

/-! ## C9: series of at most five points are never flagged -/

theorem sum_map_sub_const (l : List ℚ) (c : ℚ) :
    (l.map (fun y => y - c)).sum = l.sum - l.length * c := by
  induction l with
  | nil => simp
  | cons a l ih =>
    simp only [List.map_cons, List.sum_cons, List.length_cons, ih]
    push_cast
    ring

theorem sum_sq_nonneg (l : List ℚ) : 0 ≤ (l.map (fun x => x ^ 2)).sum := by
  apply List.sum_nonneg
  intro y hy
  obtain ⟨z, _, rfl⟩ := List.mem_map.mp hy
  positivity

/-- Cauchy–Schwarz for list sums: the square of a sum is at most the
length times the sum of squares. -/
theorem sq_sum_le_length_mul_sum_sq : ∀ l : List ℚ,
    l.sum ^ 2 ≤ (l.length : ℚ) * (l.map (fun x => x ^ 2)).sum := by
  intro l
  induction l with
  | nil => simp
  | cons a l ih =>
    rcases eq_or_ne l [] with rfl | hne
    · simp
    · have hq : 0 ≤ (l.map (fun x => x ^ 2)).sum := sum_sq_nonneg l
      have hnpos : 0 < (l.length : ℚ) := by
        have : 0 < l.length := List.length_pos.mpr hne
        exact_mod_cast this
      have hnq : 0 ≤ (l.length : ℚ) * (l.map (fun x => x ^ 2)).sum - l.sum ^ 2 := by
        linarith
      have hprod : 0 ≤ (l.length : ℚ) *
          ((l.length : ℚ) * (l.map (fun x => x ^ 2)).sum - l.sum ^ 2) :=
        mul_nonneg hnpos.le hnq
      simp only [List.sum_cons, List.map_cons, List.length_cons]
      push_cast
      nlinarith [hnq, hprod, hnpos, sq_nonneg ((l.length : ℚ) * a - l.sum), hq]

/-- The squared deviation of any single point is at most `(n-1)/n` times
the total squared deviation: `n·(x-μ)² ≤ (n-1)·Σ(y-μ)²`. -/
theorem dev_sq_le (xs : List ℚ) (x : ℚ) (hx : x ∈ xs) :
    (xs.length : ℚ) * (x - mean xs) ^ 2 ≤
      ((xs.length : ℚ) - 1) * (xs.map (fun y => (y - mean xs) ^ 2)).sum := by
  have hn : 1 ≤ xs.length := List.length_pos.mpr (List.ne_nil_of_mem hx)
  set μ := mean xs with hμ
  set rest := xs.erase x with hrestdef
  have hperm : xs.Perm (x :: rest) := List.perm_cons_erase hx
  have hlenr : rest.length = xs.length - 1 := List.length_erase_of_mem hx
  have hlenr' : (rest.length : ℚ) = (xs.length : ℚ) - 1 := by
    rw [hlenr, Nat.cast_sub hn, Nat.cast_one]
  have hsum : xs.sum = x + rest.sum := by
    simpa using hperm.sum_eq
  have hS : (xs.map (fun y => (y - μ) ^ 2)).sum =
      (x - μ) ^ 2 + (rest.map (fun y => (y - μ) ^ 2)).sum := by
    simpa using (hperm.map (fun y => (y - μ) ^ 2)).sum_eq
  have hn0 : (xs.length : ℚ) ≠ 0 := Nat.cast_ne_zero.mpr (by omega)
  have hsum_mu : xs.sum = (xs.length : ℚ) * μ := by
    rw [hμ, mean]
    field_simp
  have hT : (rest.map (fun y => y - μ)).sum = -(x - μ) := by
    rw [sum_map_sub_const, hlenr']
    have : rest.sum = xs.sum - x := by linarith [hsum]
    rw [this, hsum_mu]
    ring
  have hcs := sq_sum_le_length_mul_sum_sq (rest.map (fun y => y - μ))
  rw [hT, List.length_map, List.map_map] at hcs
  have hcomp : (rest.map ((fun x => x ^ 2) ∘ fun y => y - μ)) =
      rest.map (fun y => (y - μ) ^ 2) := rfl
  rw [hcomp, hlenr'] at hcs
  have hd : (-(x - μ)) ^ 2 = (x - μ) ^ 2 := by ring
  rw [hd] at hcs
  rw [hS]
  nlinarith [hcs]

/-- C9: a z-score computed with the sample standard deviation (`ddof=1`)
of an `n`-point series can reach at most `(n-1)/√n` in absolute value,
which is below the threshold `2` whenever `n ≤ 5`; hence anomaly
detection on a series of at most five months never flags anything,
whatever the values. -/
theorem c9_short_series_no_anomalies (series : List (Month × ℚ))
    (h : series.length ≤ 5) : detectAnomalies series = [] := by
  by_cases hg : 2 ≤ series.length ∧ sampleVar (series.map (fun p => p.2)) ≠ 0
  · obtain ⟨hn2, hvar⟩ := hg
    have hempty : series.filter (fun p =>
        decide (4 * sampleVar (series.map (fun q => q.2)) <
          (p.2 - mean (series.map (fun q => q.2))) ^ 2)) = [] := by
      rw [List.filter_eq_nil_iff]
      intro p hp
      simp only [decide_eq_true_eq, not_lt]
      set xs := series.map (fun q => q.2) with hxs
      have hx2 : p.2 ∈ xs := List.mem_map_of_mem _ hp
      have hlen : xs.length = series.length := List.length_map _ _
      have key := dev_sq_le xs p.2 hx2
      set S := (xs.map (fun y => (y - mean xs) ^ 2)).sum with hSdef
      have hS : 0 ≤ S := by
        rw [hSdef]
        apply List.sum_nonneg
        intro y hy
        obtain ⟨z, _, rfl⟩ := List.mem_map.mp hy
        positivity
      have hcast : ((xs.length - 1 : ℕ) : ℚ) = (xs.length : ℚ) - 1 :=
        by rw [Nat.cast_sub (by omega), Nat.cast_one]
      have hvar_eq : sampleVar xs = S / ((xs.length : ℚ) - 1) := by
        rw [sampleVar, hcast]
      have hcases : xs.length = 2 ∨ xs.length = 3 ∨ xs.length = 4 ∨ xs.length = 5 := by
        omega
      rcases hcases with hl | hl | hl | hl <;>
        rw [hl] at key hvar_eq <;>
        rw [hvar_eq] <;>
        push_cast at key ⊢ <;>
        norm_num <;>
        nlinarith [key, hS, sq_nonneg (p.2 - mean xs)]
    simp only [detectAnomalies]
    rw [if_pos (by rw [List.length_map]; exact ⟨hn2, hvar⟩), hempty, List.map_nil]
  · simp only [detectAnomalies]
    rw [if_neg (by rw [List.length_map]; exact hg)]

/-- Witness for C9: a five-point series with one extreme value still
flags nothing. -/
theorem c9_short_series_no_anomalies_witness :
    detectAnomalies [(0, 0), (1, 0), (2, 0), (3, 0), (4, 100)] = [] :=
  c9_short_series_no_anomalies [(0, 0), (1, 0), (2, 0), (3, 0), (4, 100)] (by decide)

end UIDAI
